import Mathlib

/-!
Shallow embedding of the enum-to-BigQuery pipeline of this repository
(`index.js`, function `exports.github` and its helpers).  The JavaScript
core is a set of regex-driven pure functions:

* `parseEnumDeclaration` — extracts an enum name and its value tuples from
  raw source text using three regexes;
* `guessSchema` — infers a per-column type (`boolean`/`integer`/`string`);
* `camelToSnakeCase` — normalises the enum name into a table id;
* `enumToBigQuerySchemaFields` / `enumToBigQueryRows` — project the parsed
  values into a schema descriptor and row records;
* the pure data path of `exports.github` (parse, filter, project).

Each specific regex of the source is embedded as a dedicated recursive
matcher over `List Char`, written to reproduce the ECMAScript backtracking
semantics of that concrete pattern (leftmost match, lazy/greedy quantifier
preference, capture-group behaviour under repetition).  The derivations are
documented at each definition.
-/

namespace EnumPipeline

/-- A JavaScript value as it occurs in the parsed tuples: the regex captures
are strings, and the auto-index counter of bare mode is a number. -/
inductive JVal
  | str (s : String)
  | num (n : Nat)
deriving DecidableEq, Repr

/-- JavaScript truthiness on the values above: the empty string and the
number 0 are falsy, everything else is truthy (used by the
`if (values[i])` guard and the `filter(x => x)` steps of the source). -/
def jvalTruthy : JVal → Bool
  | .str s => !s.isEmpty
  | .num n => n != 0

/-- Character class `[A-Z_]` of the source regexes (start of an enum key). -/
def identStart (c : Char) : Bool := (decide ('A' ≤ c) && decide (c ≤ 'Z')) || c == '_'

/-- Character class `[A-Z0-9_]` of the source regexes (body of an enum key). -/
def identChar (c : Char) : Bool := identStart c || c.isDigit

/-- The ECMAScript whitespace class `\s` (whitespace plus line terminators). -/
def jsWS (c : Char) : Bool :=
  [' ', '\t', '\n', '\r', '\x0b', '\x0c', '\u00A0', '\u1680', '\u2000',
   '\u2001', '\u2002', '\u2003', '\u2004', '\u2005', '\u2006', '\u2007',
   '\u2008', '\u2009', '\u200A', '\u2028', '\u2029', '\u202F', '\u205F',
   '\u3000', '\uFEFF'].contains c

/-- Greedy `\s*`: drop the maximal whitespace run.  In every context this
regex run is followed by a character that is not whitespace-matchable, so
the greedy maximal run is the one the backtracking engine settles on. -/
def skipWs (l : List Char) : List Char := l.dropWhile jsWS

/-- Literal-prefix test on character lists. -/
def startsWithL : List Char → List Char → Bool
  | [], _ => true
  | _ :: _, [] => false
  | p :: ps, c :: cs => p == c && startsWithL ps cs

/-- Substring test on character lists: some suffix starts with the pattern. -/
def containsL (pat : List Char) : List Char → Bool
  | [] => pat.isEmpty
  | c :: rest => startsWithL pat (c :: rest) || containsL pat rest

/-!
### The whole-enum regex

Source: `const re_whole_enum = / enum ([^\s]+).*?((?:\n.*?)*?);/m;`

After the literal ` enum ` and the greedy name run `([^\s]+)`, the tail
`.*?((?:\n.*?)*?);` is resolved by the lazy quantifiers as follows.  `.`
does not match a newline, so `.*?` can only grow along the current line
and each loop iteration of the group must begin at a `\n`.  The engine
therefore probes each position left to right: at a `;` it closes the
match, at a `\n` it enters the capturing group (which then spans up to the
terminating `;`), and otherwise it extends `.*?`.  Net effect: the match
ends at the first `;` after the name, and capture 2 (the value section)
runs from the first `\n` before that `;` — or is empty when the `;` is on
the same line as the name.
-/

/-- Inside capture 2 of re_whole_enum, after the first newline: accumulate
characters up to the terminating `;`. -/
def captureToSemi : List Char → Option (List Char × List Char)
  | [] => none
  | c :: rest =>
    if c = ';' then some ([], rest)
    else (captureToSemi rest).map (fun p => (c :: p.1, p.2))

/-- Tail `.*?((?:\n.*?)*?);` of re_whole_enum: scan to the first `;`,
capturing from the first `\n` if one comes before it.  Returns the capture
and the remainder after the `;`, or none when no `;` follows. -/
def enumTail : List Char → Option (List Char × List Char)
  | [] => none
  | c :: rest =>
    if c = ';' then some ([], rest)
    else if c = '\n' then (captureToSemi rest).map (fun p => (c :: p.1, p.2))
    else enumTail rest

/-- Greedy `([^\s]+)` (the enum name) with backtracking: the run of
non-whitespace characters is shortened from the right, one character at a
time, until the tail matcher succeeds on the remainder.  The first
argument is the reversed candidate run. -/
def namePick : List Char → List Char → Option (List Char × List Char)
  | [], _ => none
  | c :: revRest, after =>
    match enumTail after with
    | some p => some ((c :: revRest).reverse, p.1)
    | none => namePick revRest (c :: after)

/-- One anchored attempt of re_whole_enum at the head of the input:
literal ` enum `, then the name, then the tail. -/
def tryEnumAt (s : List Char) : Option (List Char × List Char) :=
  if startsWithL " enum ".data s then
    let t := s.drop 6
    namePick (t.takeWhile (fun c => !jsWS c)).reverse (t.dropWhile (fun c => !jsWS c))
  else none

/-- `re_whole_enum.exec(source_code)`: leftmost match — try each start
position left to right.  Returns (capture 1, capture 2): the enum name and
the value section. -/
def execWholeEnum : List Char → Option (List Char × List Char)
  | [] => none
  | c :: rest =>
    match tryEnumAt (c :: rest) with
    | some r => some r
    | none => execWholeEnum rest

/-!
### The paren-mode test regex

Source: `const re_test_enum_with_paren = new RegExp(`...`, 'g')` built from
`([A-Z_][A-Z0-9_]*)\s*\(.*\)` and used once via `.test` on the value
section (a freshly constructed object, so `lastIndex` starts at 0).  A
match exists iff at some position there is a key run, then `\s*` (which may
cross newlines), then `(`, then a `)` later on the same line (`.` does not
match `\n`).  Shortening the greedy key run or whitespace run only exposes
characters that cannot match the respective successor, so the maximal runs
are the ones that decide the test.
-/

/-- Tail `.*\)` of the test regex: a closing paren on the current line. -/
def closeParenSameLine : List Char → Bool
  | [] => false
  | c :: rest =>
    if c = '\n' then false
    else if c = ')' then true
    else closeParenSameLine rest

/-- One anchored attempt of the test regex at the head of the input. -/
def testParenAt (s : List Char) : Bool :=
  match s with
  | [] => false
  | c :: _ =>
    identStart c &&
      (match skipWs (s.dropWhile identChar) with
       | '(' :: r => closeParenSameLine r
       | _ => false)

/-- `re_test_enum_with_paren.test(enum_value_section)`. -/
def testParen : List Char → Bool
  | [] => false
  | c :: rest => testParenAt (c :: rest) || testParen rest

/-!
### The paren-mode entry regex

Source: `re_enum_with_paren` =
`([A-Z_][A-Z0-9_]*)\s*\(\s*LIT(?:\s*,\s*LIT)?(?:\s*,\s*LIT)?(?:\s*,\s*LIT)*\s*\)`
with `LIT = (?:(true|false|[0-9]+(?:\.[0-9])?)|(?:'(.*?)'|"(.*?)"))`,
run in a global `exec` loop; each match contributes
`m.slice(1).filter(x => x)` (captures in group order with the undefined and
empty-string ones removed).

Backtracking is embedded through explicit candidate lists in the engine's
preference order.  A bare literal (keyword or numeral) yields one
candidate: giving characters back would leave the continuation — always
`\s*` followed by `,` or `)` in this pattern — facing a keyword letter,
digit or `.`, which can never match, and when a numeral carries the
optional `.digit` part the shorter alternative leaves the continuation at
the `.` and fails likewise (the spelled-out shorter numeral candidate is
kept for the case without a following digit).  A quoted literal is lazy,
so its candidates are the successive closing quotes on the current line,
nearest first.

Per the ECMAScript RepeatMatcher, the captures inside a quantified group
are reset at the start of every repetition, so the starred fourth-and-later
label group retains only the captures of its final iteration.
-/

/-- Candidates of a lazy quoted capture `(.*?)` closed by quote q: the
successive closing quotes on the current line, nearest first. -/
def quoteScan (q : Char) (acc : List Char) : List Char → List (String × List Char)
  | [] => []
  | c :: rest =>
    if c = q then (String.mk acc.reverse, rest) :: quoteScan q (c :: acc) rest
    else if c = '\n' then []
    else quoteScan q (c :: acc) rest

/-- Candidates of a quoted literal `'(.*?)'` or `"(.*?)"`. -/
def quoteCands (q : Char) : List Char → List (String × List Char)
  | [] => []
  | c :: rest => if c = q then quoteScan q [] rest else []

/-- Candidates of the numeral alternative `[0-9]+(?:\.[0-9])?`: the greedy
digit run, with the optional `.digit` part preferred when present. -/
def numCands (s : List Char) : List (String × List Char) :=
  let ds := s.takeWhile Char.isDigit
  let rest := s.dropWhile Char.isDigit
  if ds.isEmpty then []
  else
    match rest with
    | '.' :: d :: r =>
      if d.isDigit then [(String.mk (ds ++ ['.', d]), r), (String.mk ds, rest)]
      else [(String.mk ds, rest)]
    | _ => [(String.mk ds, rest)]

/-- Candidates of one literal `LIT`, in the alternation order of the
source pattern: `true`, `false`, numeral, single-quoted, double-quoted. -/
def litCands (s : List Char) : List (String × List Char) :=
  (if startsWithL "true".data s then [("true", s.drop 4)] else [])
    ++ (if startsWithL "false".data s then [("false", s.drop 5)] else [])
    ++ numCands s ++ quoteCands '\'' s ++ quoteCands '"' s

/-- Candidates of one label `\s*,\s*LIT`. -/
def labelCands (s : List Char) : List (String × List Char) :=
  match skipWs s with
  | ',' :: r => litCands (skipWs r)
  | _ => []

/-- Candidates of an optional label `(?:\s*,\s*LIT)?`: present first. -/
def optCands (s : List Char) : List (Option String × List Char) :=
  (labelCands s).map (fun p => (some p.1, p.2)) ++ [(none, s)]

/-- Candidates of the greedy starred label `(?:\s*,\s*LIT)*`, depth-first
with more iterations preferred, paired with the capture of the final
iteration (earlier iterations are reset per the RepeatMatcher).  Each
iteration consumes at least two characters, so fuel = length + 1 is never
exhausted when supplied by `matchArgs`. -/
def starCands : Nat → List Char → List (Option String × List Char)
  | 0, s => [(none, s)]
  | fuel + 1, s =>
    (labelCands s).flatMap (fun p =>
      (starCands fuel p.2).map (fun q => (some (q.1.getD p.1), q.2)))
      ++ [(none, s)]

/-- The argument part `\s*LIT(LBL)?(LBL)?(LBL)*\s*\)` after the opening
paren: depth-first search over the candidate lists, returning the present
captures in group order and the remainder after the closing paren. -/
def matchArgs (s : List Char) : Option (List String × List Char) :=
  (litCands (skipWs s)).findSome? (fun cp =>
    (optCands cp.2).findSome? (fun o1 =>
      (optCands o1.2).findSome? (fun o2 =>
        (starCands (o2.2.length + 1) o2.2).findSome? (fun ost =>
          match skipWs ost.2 with
          | ')' :: r5 => some ([some cp.1, o1.1, o2.1, ost.1].filterMap id, r5)
          | _ => none))))

/-- One anchored attempt of re_enum_with_paren whose head is a key
character: the greedy key run (shortening it cannot help `\s*\(` match),
then the arguments.  The tuple is `m.slice(1).filter(x => x)`: the key and
the present captures, with empty strings removed by JavaScript
truthiness. -/
def tryEntry (s : List Char) : Option (List JVal × List Char) :=
  match skipWs (s.dropWhile identChar) with
  | '(' :: r =>
    (matchArgs r).map (fun p =>
      (((String.mk (s.takeWhile identChar) :: p.1).filter (fun c => !c.isEmpty)).map JVal.str,
        p.2))
  | _ => none

/-- The global exec loop over re_enum_with_paren: scan left to right, on a
match push the tuple and resume after it, on a failed attempt advance one
position.  Every step shortens the input, so fuel = length + 1 suffices. -/
def parenScanF : Nat → List Char → List (List JVal)
  | 0, _ => []
  | _ + 1, [] => []
  | fuel + 1, c :: rest =>
    if identStart c then
      match tryEntry (c :: rest) with
      | some p => p.1 :: parenScanF fuel p.2
      | none => parenScanF fuel rest
    else parenScanF fuel rest

/-- Paren-mode parse of the value section. -/
def parenValues (s : List Char) : List (List JVal) := parenScanF (s.length + 1) s

/-!
### Bare mode

Source: `re_enum_without_paren = new RegExp(re_key, 'g')` — the key class
alone, in a global exec loop.  Its successive matches are the maximal runs
of `[A-Z0-9_]` characters begun at a `[A-Z_]` character (digits in front
of a run are skipped, digits and underscores inside are kept).
-/

/-- Single-pass scanner for the bare-mode matches; `cur` holds the
reversed accumulator of the run currently being matched. -/
def bareGo (cur : Option (List Char)) : List Char → List (List Char)
  | [] => match cur with | some acc => [acc.reverse] | none => []
  | c :: rest =>
    match cur with
    | some acc =>
      if identChar c then bareGo (some (c :: acc)) rest
      else acc.reverse :: bareGo none rest
    | none => if identStart c then bareGo (some [c]) rest else bareGo none rest

/-- The successive matches of re_enum_without_paren on the value section. -/
def bareScan (s : List Char) : List (List Char) := bareGo none s

/-- Bare-mode tuples: `matched.push([m[1], autoindex_code++])` — the
identifier paired with the running counter, which equals its match index. -/
def bareTuples (ids : List (List Char)) : List (List JVal) :=
  ids.enum.map (fun p => [JVal.str (String.mk p.2), JVal.num p.1])

/-- The mode dispatch and match loop of parseEnumDeclaration over the
captured value section. -/
def parseValueSection (sec : List Char) : List (List JVal) :=
  if testParen sec then parenValues sec else bareTuples (bareScan sec)

/-- The parser result `{ name: enum_name, values: matched }`. -/
structure EnumDeclaration where
  name : String
  values : List (List JVal)
deriving DecidableEq, Repr

/-- Source function `parseEnumDeclaration`: null when re_whole_enum does
not match, otherwise the name with the parsed value section. -/
def parseEnumDeclaration (source_code : String) : Option EnumDeclaration :=
  match execWholeEnum source_code.data with
  | none => none
  | some p => some ⟨String.mk p.1, parseValueSection p.2⟩

/-!
### Type guesser (source function `guessSchema`)

The source transposes with `ret[c] = a.map(r => r[c])`, so a row shorter
than the column index contributes `undefined` (here: `none`) to that
column.  The later `.filter(x => x)` filters columns, and every column is
an array hence truthy, so it removes nothing and is not modelled.
`undefined` fails both the boolean test (`x === 'true' || x === 'false'`)
and the integer test (`/^[0-9]+$/.test(undefined)` coerces to the string
"undefined").  A number cell passes the integer test: its decimal string
is all digits and `typeof parseInt(...)` is number.
-/

inductive ColType
  | boolean
  | integer
  | string
deriving DecidableEq, Repr

/-- The boolean test `x === 'true' || x === 'false'` on a column cell. -/
def isBooleanCell : Option JVal → Bool
  | some (.str s) => s == "true" || s == "false"
  | some (.num _) => false
  | none => false

/-- The integer test `isNumber(parseIntIfParsable(x))` on a column cell:
for a string, the strict all-digits pattern `/^[0-9]+$/`. -/
def isIntegerCell : Option JVal → Bool
  | some (.str s) => !s.isEmpty && s.data.all Char.isDigit
  | some (.num _) => true
  | none => false

/-- `Math.max(...a.map(x => x.length))`, with 0 for no rows (the loop then
runs zero iterations, as with the source value -Infinity). -/
def numCols (rows : List (List JVal)) : Nat :=
  rows.foldr (fun r m => max r.length m) 0

/-- Column c of the transposed array: `a.map(r => r[c])`. -/
def colAt (rows : List (List JVal)) (c : Nat) : List (Option JVal) :=
  rows.map (fun r => r.get? c)

/-- The per-column type assignment, boolean before integer before string. -/
def colType (col : List (Option JVal)) : ColType :=
  if col.all isBooleanCell then .boolean
  else if col.all isIntegerCell then .integer
  else .string

/-- Source function `guessSchema`. -/
def guessSchema (rows : List (List JVal)) : List ColType :=
  ((List.range (numCols rows)).map (colAt rows)).map colType

/-!
### Identifier normaliser (source function `camelToSnakeCase`)

`str.split(/(?=[A-Z])/).join('_').toLowerCase()`: the split-with-lookahead
starts a new segment before every `[A-Z]` character except at position 0
(an empty match at the start does not split), then the segments are joined
with underscores and lowercased.
-/

def camelGo (acc : List Char) : List Char → List (List Char)
  | [] => [acc.reverse]
  | c :: rest =>
    if c.isUpper then acc.reverse :: camelGo [c] rest else camelGo (c :: acc) rest

/-- The segments of `str.split(/(?=[A-Z])/)`; the empty string yields no
segments, and joining none gives the empty result as in the source. -/
def camelSegs : List Char → List (List Char)
  | [] => []
  | c :: rest => camelGo [c] rest

/-- Source function `camelToSnakeCase` (lowercasing per segment equals
lowercasing the joined result, as the separator has no case). -/
def camelToSnakeCase (str : String) : String :=
  String.intercalate "_" ((camelSegs str.data).map (fun seg => String.mk (seg.map Char.toLower)))

/-!
### Record projector and pipeline
-/

/-- One entry of the BigQuery schema descriptor. -/
structure SchemaField where
  name : String
  type : ColType
deriving DecidableEq, Repr

/-- The fixed column list of exports.github. -/
def bqColumns : List String := ["key", "code", "label"]

/-- Source function `enumToBigQuerySchemaFields`: the guessed types
truncated to the column count, paired positionally with the column names
(`field_types.map((type, i) => ({ name: columns[i], type }))`, written as
a zip, which produces the same pairs since the truncated type list is no
longer than the column list). -/
def enumToBigQuerySchemaFields (enum_values : List (List JVal)) (columns : List String) :
    List SchemaField :=
  (columns.zip ((guessSchema enum_values).take columns.length)).map (fun p => ⟨p.1, p.2⟩)

/-- The row object built by `columns.map((_, i) => { if (values[i])
row[columns[i]] = values[i]; })`: one entry per column index whose tuple
value exists and is truthy, in column order. -/
def rowOf (columns : List String) (values : List JVal) : List (String × JVal) :=
  columns.enum.filterMap (fun p =>
    match values.get? p.1 with
    | some v => if jvalTruthy v then some (p.2, v) else none
    | none => none)

/-- Source function `enumToBigQueryRows`. -/
def enumToBigQueryRows (enum_values : List (List JVal)) (columns : List String) :
    List (List (String × JVal)) :=
  enum_values.map (rowOf columns)

/-- What exports.github hands to one `insertRowsToBigQuery` call. -/
structure LoadRequest where
  table_id : String
  schema : List SchemaField
  rows : List (List (String × JVal))
deriving DecidableEq, Repr

/-- The pure data path of exports.github on the fetched file contents:
parse each file, drop the null results and the declarations with no
values (`filter(x => x && x.values && 0 < x.values.length)` — an array is
always truthy, so the middle conjunct removes nothing), then project. -/
def processContents (contents : List String) : List LoadRequest :=
  (((contents.map parseEnumDeclaration).filterMap id).filter
      (fun d => 0 < d.values.length)).map
    (fun d =>
      ⟨camelToSnakeCase d.name,
        enumToBigQuerySchemaFields d.values bqColumns,
        enumToBigQueryRows d.values bqColumns⟩)



/-!
### Bare-mode declarations as interleavings (for stating formatting independence)
-/

/-- Text of a bare-mode value section fragment: identifier runs interleaved
with separator runs. -/
def chainText : List (List Char × List Char) → List Char
  | [] => []
  | p :: rest => p.1 ++ (p.2 ++ chainText rest)

/-- Wellformed bare-mode identifier: nonempty, starting in `[A-Z_]` and
continuing in `[A-Z0-9_]` — exactly one match of the key regex. -/
def wfIdentB : List Char → Bool
  | [] => false
  | c :: cs => identStart c && cs.all identChar

/-- Wellformed separator between bare-mode entries: nonempty (so adjacent
identifiers do not merge) and free of identifier characters — arbitrary
whitespace, newlines, commas and the like. -/
def wfSepB (sep : List Char) : Bool :=
  !sep.isEmpty && sep.all (fun c => !identChar c)

/-!
### Lemmas: a successful whole-enum match needs the literal ` enum ` and a `;`
-/

theorem containsL_of_startsWithL (p l : List Char) (h : startsWithL p l = true) :
    containsL p l = true := by
  match l with
  | [] =>
    match p with
    | [] => rfl
    | _ :: _ => simp [startsWithL] at h
  | x :: xs =>
    simp only [containsL, Bool.or_eq_true]
    exact Or.inl h

theorem containsL_tailPat (c : Char) (p : List Char) :
    ∀ l, containsL (c :: p) l = true → containsL p l = true := by
  intro l
  induction l with
  | nil => intro h; simp [containsL] at h
  | cons x xs ih =>
    intro h
    simp only [containsL, Bool.or_eq_true] at h
    rcases h with h1 | h2
    · simp only [startsWithL, Bool.and_eq_true] at h1
      simp only [containsL, Bool.or_eq_true]
      exact Or.inr (containsL_of_startsWithL p xs h1.2)
    · simp only [containsL, Bool.or_eq_true]
      exact Or.inr (ih h2)

theorem startsWithL_append_right (p q : List Char) :
    ∀ l, startsWithL (p ++ q) l = true → startsWithL p l = true := by
  induction p with
  | nil => intro l _; rfl
  | cons a ps ih =>
    intro l h
    match l with
    | [] => simp [startsWithL] at h
    | x :: xs =>
      simp only [List.cons_append, startsWithL, Bool.and_eq_true] at h ⊢
      exact ⟨h.1, ih xs h.2⟩

theorem containsL_append_right (p q : List Char) :
    ∀ l, containsL (p ++ q) l = true → containsL p l = true := by
  intro l
  induction l with
  | nil =>
    intro h
    simp only [containsL, List.isEmpty_eq_true, List.append_eq_nil] at h
    simp [containsL, h.1]
  | cons x xs ih =>
    intro h
    simp only [containsL, Bool.or_eq_true] at h ⊢
    rcases h with h1 | h2
    · exact Or.inl (startsWithL_append_right p q _ h1)
    · exact Or.inr (ih h2)

theorem captureToSemi_mem : ∀ (t : List Char) (p), captureToSemi t = some p → ';' ∈ t := by
  intro t
  induction t with
  | nil => intro p h; simp [captureToSemi] at h
  | cons c rest ih =>
    intro p h
    by_cases hc : c = ';'
    · subst hc; exact List.mem_cons_self _ _
    · simp only [captureToSemi, if_neg hc] at h
      cases hq : captureToSemi rest with
      | none => rw [hq] at h; simp at h
      | some q => exact List.mem_cons_of_mem _ (ih q hq)

theorem enumTail_mem : ∀ (t : List Char) (p), enumTail t = some p → ';' ∈ t := by
  intro t
  induction t with
  | nil => intro p h; simp [enumTail] at h
  | cons c rest ih =>
    intro p h
    by_cases hc : c = ';'
    · subst hc; exact List.mem_cons_self _ _
    · by_cases hn : c = '\n'
      · simp only [enumTail, if_neg hc, if_pos hn] at h
        cases hq : captureToSemi rest with
        | none => rw [hq] at h; simp at h
        | some q => exact List.mem_cons_of_mem _ (captureToSemi_mem rest q hq)
      · simp only [enumTail, if_neg hc, if_neg hn] at h
        exact List.mem_cons_of_mem _ (ih p h)

theorem namePick_mem : ∀ (rev after : List Char) (p), namePick rev after = some p →
    ';' ∈ rev ∨ ';' ∈ after := by
  intro rev
  induction rev with
  | nil => intro after p h; simp [namePick] at h
  | cons c rest ih =>
    intro after p h
    rw [namePick] at h
    cases he : enumTail after with
    | some q => exact Or.inr (enumTail_mem after q he)
    | none =>
      rw [he] at h
      rcases ih (c :: after) p h with h1 | h2
      · exact Or.inl (List.mem_cons_of_mem _ h1)
      · rcases List.mem_cons.mp h2 with h3 | h3
        · exact Or.inl (by rw [h3]; exact List.mem_cons_self _ _)
        · exact Or.inr h3

theorem tryEnumAt_startsWith (s : List Char) (r) (h : tryEnumAt s = some r) :
    startsWithL " enum ".data s = true := by
  unfold tryEnumAt at h
  split at h
  · assumption
  · simp at h

theorem tryEnumAt_mem (s : List Char) (r) (h : tryEnumAt s = some r) : ';' ∈ s := by
  unfold tryEnumAt at h
  split at h
  · rcases namePick_mem _ _ _ h with h1 | h2
    · have h3 : ';' ∈ (s.drop 6).takeWhile (fun c => !jsWS c) := List.mem_reverse.mp h1
      have h4 : ';' ∈ s.drop 6 := by
        rw [← List.takeWhile_append_dropWhile (p := fun c => !jsWS c) (l := s.drop 6)]
        exact List.mem_append_left _ h3
      exact List.mem_of_mem_drop h4
    · have h4 : ';' ∈ s.drop 6 := by
        rw [← List.takeWhile_append_dropWhile (p := fun c => !jsWS c) (l := s.drop 6)]
        exact List.mem_append_right _ h2
      exact List.mem_of_mem_drop h4
  · simp at h

theorem execWholeEnum_mem : ∀ (l : List Char) (r), execWholeEnum l = some r → ';' ∈ l := by
  intro l
  induction l with
  | nil => intro r h; simp [execWholeEnum] at h
  | cons c rest ih =>
    intro r h
    rw [execWholeEnum] at h
    cases ht : tryEnumAt (c :: rest) with
    | some q => exact tryEnumAt_mem _ q ht
    | none => rw [ht] at h; exact List.mem_cons_of_mem _ (ih r h)

theorem execWholeEnum_contains : ∀ (l : List Char) (r), execWholeEnum l = some r →
    containsL " enum ".data l = true := by
  intro l
  induction l with
  | nil => intro r h; simp [execWholeEnum] at h
  | cons c rest ih =>
    intro r h
    rw [execWholeEnum] at h
    cases ht : tryEnumAt (c :: rest) with
    | some q =>
      exact containsL_of_startsWithL _ _ (tryEnumAt_startsWith _ q ht)
    | none =>
      rw [ht] at h
      simp only [containsL, Bool.or_eq_true]
      exact Or.inr (ih r h)

/-- Claim C8: a source text without the `enum` keyword parses to null, and a
source text without any `;` (hence without a terminator for the value
section) parses to null; concretely, an enum declaration lacking the
terminating semicolon parses to null. -/
theorem c8_parse_failures :
    (∀ s : String, containsL "enum".data s.data = false → parseEnumDeclaration s = none)
    ∧ (∀ s : String, ';' ∉ s.data → parseEnumDeclaration s = none)
    ∧ parseEnumDeclaration " enum Foo \x7b A, B \x7d" = none := by
  refine ⟨?_, ?_, by decide⟩
  · intro s h
    unfold parseEnumDeclaration
    cases he : execWholeEnum s.data with
    | none => rfl
    | some p =>
      exfalso
      have h6 := execWholeEnum_contains _ _ he
      have heq : " enum ".data = ' ' :: ("enum".data ++ [' ']) := by decide
      rw [heq] at h6
      have h5 := containsL_tailPat _ _ _ h6
      have h4 := containsL_append_right _ _ _ h5
      rw [h] at h4
      exact Bool.false_ne_true h4
  · intro s h
    unfold parseEnumDeclaration
    cases he : execWholeEnum s.data with
    | none => rfl
    | some p => exact absurd (execWholeEnum_mem _ _ he) h

/-- Witness for C8 at concrete inputs: a text with no `enum` keyword and a
text with an enum declaration but no semicolon both parse to null. -/
theorem c8_parse_failures_witness :
    parseEnumDeclaration "class Foo" = none
    ∧ parseEnumDeclaration " enum Bar \x7b A \x7d" = none :=
  ⟨c8_parse_failures.1 "class Foo" (by decide),
   c8_parse_failures.2.1 " enum Bar \x7b A \x7d" (by decide)⟩

/-- Claim C10: the whole-enum regex demands a literal space immediately
before and after the `enum` token, so any source in which no occurrence of
`enum` is flanked by spaces on both sides (equivalently: ` enum ` is not a
substring) parses to null — even when an enum declaration is present at
the start of the text or after other whitespace; with the leading space
supplied, the same declaration parses. -/
theorem c10_space_flanked_enum :
    (∀ s : String, containsL " enum ".data s.data = false → parseEnumDeclaration s = none)
    ∧ parseEnumDeclaration "enum Color \x7b\n  RED;\n\x7d" = none
    ∧ parseEnumDeclaration "x\nenum Color \x7b\n  RED;\n\x7d" = none
    ∧ parseEnumDeclaration " enum Color \x7b\n  RED;\n\x7d"
        = some ⟨"Color", [[JVal.str "RED", JVal.num 0]]⟩ := by
  refine ⟨?_, by decide, by decide, by decide⟩
  intro s h
  unfold parseEnumDeclaration
  cases he : execWholeEnum s.data with
  | none => rfl
  | some p =>
    exfalso
    have h6 := execWholeEnum_contains _ _ he
    rw [h] at h6
    exact Bool.false_ne_true h6

/-- Witness for C10: a text whose `enum` token is preceded by a tab parses
to null. -/
theorem c10_space_flanked_enum_witness :
    parseEnumDeclaration "\t" = none ∧ parseEnumDeclaration "a\tenum B \x7b\n C;\n\x7d" = none :=
  ⟨c10_space_flanked_enum.1 "\t" (by decide),
   c10_space_flanked_enum.1 "a\tenum B \x7b\n C;\n\x7d" (by decide)⟩

/-- Claim C1, counterexample: a source text containing the declaration
`enum Status { OK(0, "Green"), NG(1, "Red"); }` verbatim (one line, as
written in the claim).  The whole-enum regex captures the value section
only from the first newline, so a single-line declaration yields an empty
value section; the declaration is filtered out and the pipeline produces
no table at all — not the claimed table. -/
theorem c1_single_line_counterexample :
    containsL "enum Status \x7b OK(0, \"Green\"), NG(1, \"Red\"); \x7d".data
        (" enum Status \x7b OK(0, \"Green\"), NG(1, \"Red\"); \x7d").data = true
    ∧ parseEnumDeclaration " enum Status \x7b OK(0, \"Green\"), NG(1, \"Red\"); \x7d"
        = some ⟨"Status", []⟩
    ∧ processContents [" enum Status \x7b OK(0, \"Green\"), NG(1, \"Red\"); \x7d"] = [] := by
  refine ⟨by decide, by decide, by decide⟩

/-- Claim C1 as amended: with the declaration formatted across lines (the
value list on lines after the `enum Status` header, as in real Java
sources), the pipeline produces exactly the claimed table id, schema and
rows. -/
theorem c1_end_to_end :
    processContents [" enum Status \x7b\n  OK(0, \"Green\"),\n  NG(1, \"Red\");\n\x7d"]
      = [⟨"status",
          [⟨"key", ColType.string⟩, ⟨"code", ColType.integer⟩, ⟨"label", ColType.string⟩],
          [[("key", JVal.str "OK"), ("code", JVal.str "0"), ("label", JVal.str "Green")],
           [("key", JVal.str "NG"), ("code", JVal.str "1"), ("label", JVal.str "Red")]]⟩] := by
  rfl

/-- Claim C2: what the paren-entry regex actually retains.  The starred
fourth-and-later label group keeps the capture of its final iteration, so
an entry with four literals keeps all four, and an entry with five keeps
the first three plus the fifth (only the fourth is dropped) — contradicting
the source comment "more than 2 labels to be ignored" and the claim that
exactly the first three literals are retained. -/
theorem c2_fourth_literal_retained :
    parseValueSection "\n  KEY(1, \"a\", \"b\", \"c\")".data
      = [[JVal.str "KEY", JVal.str "1", JVal.str "a", JVal.str "b", JVal.str "c"]]
    ∧ parseValueSection "\n  KEY(1, \"a\", \"b\", \"c\", \"d\")".data
      = [[JVal.str "KEY", JVal.str "1", JVal.str "a", JVal.str "b", JVal.str "d"]] := by
  refine ⟨by decide, by decide⟩

/-- Claim C7: the parsing mode is decided by the single lookahead test on
the whole value section — every section is handled entirely in paren mode
or entirely in bare mode, never per entry; concretely, in a mixed section
the bare identifier ALPHA is invisible in paren mode (it yields no value
entry), while the same identifiers without any parenthesized group are all
picked up in bare mode. -/
theorem c7_single_mode_dispatch :
    (∀ sec : List Char,
        (testParen sec = true ∧ parseValueSection sec = parenValues sec)
        ∨ (testParen sec = false ∧ parseValueSection sec = bareTuples (bareScan sec)))
    ∧ parseValueSection "\n  ALPHA,\n  BETA(1, \"two\")".data
        = [[JVal.str "BETA", JVal.str "1", JVal.str "two"]]
    ∧ parseValueSection "\n  ALPHA,\n  BETA".data
        = [[JVal.str "ALPHA", JVal.num 0], [JVal.str "BETA", JVal.num 1]] := by
  refine ⟨?_, by decide, by decide⟩
  intro sec
  cases h : testParen sec with
  | true => exact Or.inl ⟨rfl, by simp [parseValueSection, h]⟩
  | false => exact Or.inr ⟨rfl, by simp [parseValueSection, h]⟩

/-- Claim C9: when the whole-enum regex matches but the value section
yields zero entries, the parser returns the declaration with an empty
values list (not null); the caller filter of exports.github keeps only
declarations with at least one value, so every load request carries at
least one row; concretely, an enum whose value section is empty is parsed
as name with empty values and excluded from the load requests. -/
theorem c9_empty_values_filtered :
    (∀ (s : String) (name sec : List Char), execWholeEnum s.data = some (name, sec) →
        parseValueSection sec = [] → parseEnumDeclaration s = some ⟨String.mk name, []⟩)
    ∧ (∀ (contents : List String) (r : LoadRequest), r ∈ processContents contents →
        0 < r.rows.length)
    ∧ parseEnumDeclaration " enum Empty \x7b ; \x7d" = some ⟨"Empty", []⟩
    ∧ processContents [" enum Empty \x7b ; \x7d"] = [] := by
  refine ⟨?_, ?_, by decide, by decide⟩
  · intro s name sec hexec hsec
    unfold parseEnumDeclaration
    rw [hexec]
    show some (⟨String.mk name, parseValueSection sec⟩ : EnumDeclaration)
      = some (⟨String.mk name, []⟩ : EnumDeclaration)
    rw [hsec]
  · intro contents r hr
    unfold processContents at hr
    rcases List.mem_map.mp hr with ⟨d, hd, rfl⟩
    have hlen := (List.mem_filter.mp hd).2
    have hpos : 0 < d.values.length := by
      simpa using hlen
    simpa [enumToBigQueryRows] using hpos

/-- Witness for C9: a declaration whose value section is empty (the
semicolon on the header line) parses to the name with an empty values
list, via the first conjunct of the theorem. -/
theorem c9_empty_values_filtered_witness :
    parseEnumDeclaration " enum Foo x;" = some ⟨String.mk "Foo".data, []⟩ :=
  c9_empty_values_filtered.1 " enum Foo x;" "Foo".data [] (by decide) (by decide)

/-!
### Lemmas for the type guesser
-/

theorem guessSchema_get? (rows : List (List JVal)) (c : Nat) (h : c < numCols rows) :
    (guessSchema rows).get? c = some (colType (colAt rows c)) := by
  unfold guessSchema
  rw [List.get?_map, List.get?_map, List.get?_range h]
  rfl

/-- Claim C5: a guessed column is boolean iff every cell of the transposed
column is literally "true" or "false"; it is integer iff it is not an
all-boolean column and every cell passes the strict all-digits test (the
boolean check is applied first); the spec examples evaluate as stated, and
a decimal point forces string. -/
theorem c5_guesser_types (rows : List (List JVal)) (c : Nat) (h : c < numCols rows) :
    ((guessSchema rows).get? c = some ColType.boolean ↔
        ∀ v ∈ colAt rows c, isBooleanCell v = true)
    ∧ ((guessSchema rows).get? c = some ColType.integer ↔
        (¬ (∀ v ∈ colAt rows c, isBooleanCell v = true)
          ∧ ∀ v ∈ colAt rows c, isIntegerCell v = true))
    ∧ guessSchema [[JVal.str "true"], [JVal.str "false"]] = [ColType.boolean]
    ∧ guessSchema [[JVal.str "123"], [JVal.str "123"]] = [ColType.integer]
    ∧ guessSchema [[JVal.str "123"], [JVal.str "not_number"]] = [ColType.string]
    ∧ guessSchema [[JVal.str "1.5"], [JVal.str "7"]] = [ColType.string] := by
  rw [guessSchema_get? rows c h]
  refine ⟨?_, ?_, by decide, by decide, by decide, by decide⟩
  · unfold colType
    by_cases hb : (colAt rows c).all isBooleanCell = true
    · rw [if_pos hb]
      simp only [Option.some.injEq, true_iff, eq_self_iff_true]
      simpa using List.all_eq_true.mp hb
    · rw [if_neg hb]
      have hne : ¬ ∀ v ∈ colAt rows c, isBooleanCell v = true := fun hall =>
        hb (List.all_eq_true.mpr (by simpa using hall))
      split <;> simp [hne]
  · unfold colType
    by_cases hb : (colAt rows c).all isBooleanCell = true
    · rw [if_pos hb]
      have hall : ∀ v ∈ colAt rows c, isBooleanCell v = true := by
        simpa using List.all_eq_true.mp hb
      constructor
      · intro heq; exact absurd heq (by decide)
      · intro hcon; exact absurd hall hcon.1
    · rw [if_neg hb]
      have hne : ¬ ∀ v ∈ colAt rows c, isBooleanCell v = true := fun hall =>
        hb (List.all_eq_true.mpr (by simpa using hall))
      by_cases hi : (colAt rows c).all isIntegerCell = true
      · rw [if_pos hi]
        simp only [Option.some.injEq, true_iff, eq_self_iff_true]
        exact ⟨hne, by simpa using List.all_eq_true.mp hi⟩
      · rw [if_neg hi]
        have hni : ¬ ∀ v ∈ colAt rows c, isIntegerCell v = true := fun hall =>
          hi (List.all_eq_true.mpr (by simpa using hall))
        simp [hni]

/-- Witness for C5: the single all-digits column of a concrete input is
guessed integer, via the integer conjunct of the theorem. -/
theorem c5_guesser_types_witness :
    (guessSchema [[JVal.str "7"]]).get? 0 = some ColType.integer :=
  (c5_guesser_types [[JVal.str "7"]] 0 (by decide)).2.1.mpr ⟨by decide, by decide⟩

/-- Claim C3, counterexample: on the ragged input [["1"], ["1", "2"]] the
second column is guessed string, not integer as the claim states — the
transpose contributes an undefined entry for the short first row, and
undefined fails the integer test. -/
theorem c3_ragged_counterexample :
    guessSchema [[JVal.str "1"], [JVal.str "1", JVal.str "2"]]
      = [ColType.integer, ColType.string] := by
  decide

/-- Claim C3 as amended: a row shorter than the column index contributes an
undefined entry (not nothing) to the transposed column, and that entry
fails both the boolean and the integer test, so any column that some row
does not reach is guessed string. -/
theorem c3_short_rows_undefined (rows : List (List JVal)) (c : Nat)
    (hc : c < numCols rows) (hshort : ∃ r ∈ rows, r.length ≤ c) :
    (guessSchema rows).get? c = some ColType.string := by
  rw [guessSchema_get? rows c hc]
  obtain ⟨r, hr, hlen⟩ := hshort
  have hnone : (none : Option JVal) ∈ colAt rows c := by
    unfold colAt
    exact List.mem_map.mpr ⟨r, hr, List.get?_eq_none.mpr hlen⟩
  have hb : ¬ ((colAt rows c).all isBooleanCell = true) := fun hall =>
    absurd (List.all_eq_true.mp hall none hnone) (by decide)
  have hi : ¬ ((colAt rows c).all isIntegerCell = true) := fun hall =>
    absurd (List.all_eq_true.mp hall none hnone) (by decide)
  unfold colType
  rw [if_neg hb, if_neg hi]

/-- Witness for C3 as amended, at the ragged input of the claim. -/
theorem c3_short_rows_undefined_witness :
    (guessSchema [[JVal.str "1"], [JVal.str "1", JVal.str "2"]]).get? 1
      = some ColType.string :=
  c3_short_rows_undefined [[JVal.str "1"], [JVal.str "1", JVal.str "2"]] 1
    (by decide) ⟨[JVal.str "1"], by decide, by decide⟩

/-!
### Lemmas: the bare-mode scanner on interleaved identifiers and separators
-/

theorem bareGo_skip (pre : List Char) (hpre : ∀ c ∈ pre, identChar c = false) :
    ∀ l, bareGo none (pre ++ l) = bareGo none l := by
  induction pre with
  | nil => intro l; rfl
  | cons c cs ih =>
    intro l
    have hc : identChar c = false := hpre c (List.mem_cons_self _ _)
    have hstart : identStart c = false := by
      cases hI : identStart c with
      | false => rfl
      | true => simp [identChar, hI] at hc
    show bareGo none (c :: (cs ++ l)) = bareGo none l
    rw [show bareGo none (c :: (cs ++ l)) = bareGo none (cs ++ l) from by simp [bareGo, hstart]]
    exact ih (fun x hx => hpre x (List.mem_cons_of_mem _ hx)) l

theorem bareGo_run (cs : List Char) (hcs : ∀ c ∈ cs, identChar c = true) :
    ∀ acc l, bareGo (some acc) (cs ++ l) = bareGo (some (cs.reverse ++ acc)) l := by
  induction cs with
  | nil => intro acc l; simp
  | cons c rest ih =>
    intro acc l
    have hc : identChar c = true := hcs c (List.mem_cons_self _ _)
    show bareGo (some acc) (c :: (rest ++ l)) = _
    rw [show bareGo (some acc) (c :: (rest ++ l)) = bareGo (some (c :: acc)) (rest ++ l) from by
      simp [bareGo, hc]]
    rw [ih (fun x hx => hcs x (List.mem_cons_of_mem _ hx)) (c :: acc) l]
    congr 1
    simp [List.reverse_cons, List.append_assoc]

theorem bareGo_stop (acc : List Char) (c : Char) (hc : identChar c = false) (l : List Char) :
    bareGo (some acc) (c :: l) = acc.reverse :: bareGo none l := by
  simp [bareGo, hc]

theorem bareScan_chain : ∀ (chain : List (List Char × List Char)) (pre : List Char),
    (∀ c ∈ pre, identChar c = false) →
    (∀ p ∈ chain, wfIdentB p.1 = true ∧ wfSepB p.2 = true) →
    bareGo none (pre ++ chainText chain) = chain.map Prod.fst := by
  intro chain
  induction chain with
  | nil =>
    intro pre hpre _
    have h1 : bareGo none (pre ++ chainText []) = bareGo none [] := bareGo_skip pre hpre []
    simpa using h1
  | cons hd tl ih =>
    intro pre hpre hchain
    obtain ⟨hid, hsep⟩ := hchain hd (List.mem_cons_self _ _)
    obtain ⟨id, sep⟩ := hd
    cases id with
    | nil => simp [wfIdentB] at hid
    | cons c cs =>
      simp only [wfIdentB, Bool.and_eq_true] at hid
      obtain ⟨hstart, hcs⟩ := hid
      cases sep with
      | nil => simp [wfSepB] at hsep
      | cons s0 srest =>
        have hsepAll : ∀ x ∈ s0 :: srest, identChar x = false := by
          intro x hx
          have h2 : (!identChar x) = true := by
            simp only [wfSepB, Bool.and_eq_true, List.all_eq_true] at hsep
            exact hsep.2 x hx
          simpa using h2
        have hs0 : identChar s0 = false := hsepAll s0 (List.mem_cons_self _ _)
        have hsrest : ∀ x ∈ srest, identChar x = false := fun x hx =>
          hsepAll x (List.mem_cons_of_mem _ hx)
        have hcsAll : ∀ x ∈ cs, identChar x = true := List.all_eq_true.mp hcs
        calc bareGo none (pre ++ chainText ((c :: cs, s0 :: srest) :: tl))
            = bareGo none (chainText ((c :: cs, s0 :: srest) :: tl)) :=
              bareGo_skip pre hpre _
          _ = bareGo none (c :: (cs ++ ((s0 :: srest) ++ chainText tl))) := by
              simp [chainText, List.cons_append]
          _ = bareGo (some [c]) (cs ++ ((s0 :: srest) ++ chainText tl)) := by
              simp [bareGo, hstart]
          _ = bareGo (some (cs.reverse ++ [c])) ((s0 :: srest) ++ chainText tl) :=
              bareGo_run cs hcsAll [c] _
          _ = bareGo (some (cs.reverse ++ [c])) (s0 :: (srest ++ chainText tl)) := by
              rw [List.cons_append]
          _ = (cs.reverse ++ [c]).reverse :: bareGo none (srest ++ chainText tl) :=
              bareGo_stop _ s0 hs0 _
          _ = ((c :: cs, s0 :: srest) :: tl).map Prod.fst := by
              rw [ih srest hsrest (fun p hp => hchain p (List.mem_cons_of_mem _ hp))]
              simp

/-- Claim C6: a bare-mode value section made of N wellformed identifiers
interleaved with arbitrary identifier-free separators parses to exactly N
tuples [identifier, ordinal] in declaration order, and the ordinals are
exactly 0..N-1, incrementing by one per match — independent of the
whitespace and newline formatting carried by the separators. -/
theorem c6_bare_mode_ordinals (pre : List Char) (chain : List (List Char × List Char))
    (hpre : ∀ c ∈ pre, identChar c = false)
    (hchain : ∀ p ∈ chain, wfIdentB p.1 = true ∧ wfSepB p.2 = true)
    (hmode : testParen (pre ++ chainText chain) = false) :
    parseValueSection (pre ++ chainText chain) = bareTuples (chain.map Prod.fst)
    ∧ (parseValueSection (pre ++ chainText chain)).map (fun t => t.get? 1)
        = (List.range chain.length).map (fun i => some (JVal.num i)) := by
  have hscan : bareScan (pre ++ chainText chain) = chain.map Prod.fst :=
    bareScan_chain chain pre hpre hchain
  have h1 : parseValueSection (pre ++ chainText chain) = bareTuples (chain.map Prod.fst) := by
    unfold parseValueSection
    rw [if_neg (by simp [hmode]), bareScan] at *
    rw [hscan]
  refine ⟨h1, ?_⟩
  rw [h1]
  unfold bareTuples
  rw [List.map_map]
  have hfun : ((fun t : List JVal => t.get? 1) ∘
      (fun p : Nat × List Char => [JVal.str (String.mk p.2), JVal.num p.1]))
      = (fun i => some (JVal.num i)) ∘ Prod.fst := by
    funext p; rfl
  rw [hfun, ← List.map_map, List.enum_map_fst, List.length_map]

/-- Witness for C6: two identifiers separated and surrounded by mixed
whitespace, comma and newline formatting get ordinals 0 and 1. -/
theorem c6_bare_mode_ordinals_witness :
    (parseValueSection ("\n  ".data ++ chainText
        [("HOGE".data, ",\n  ".data), ("FUGA".data, "\n".data)])).map (fun t => t.get? 1)
      = (List.range 2).map (fun i => some (JVal.num i)) :=
  (c6_bare_mode_ordinals "\n  ".data [("HOGE".data, ",\n  ".data), ("FUGA".data, "\n".data)]
    (by decide) (by decide) (by decide)).2

/-- Claim C4, counterexample: the tuple [str "HOGE", num 0] — the first
entry of any bare-mode declaration — has a value at position 1, yet the
projected row omits the code column, because the guard `if (values[i])`
drops falsy values and the number 0 is falsy. -/
theorem c4_falsy_value_counterexample :
    enumToBigQueryRows [[JVal.str "HOGE", JVal.num 0]] bqColumns
      = [[("key", JVal.str "HOGE")]] := by
  decide

/-- Claim C4 as amended: the projected row contains exactly the columns
key/code/label at the positions below 3 where the tuple holds a truthy
value (nonempty string or nonzero number); falsy values — the empty string
and the number 0, such as the auto-assigned ordinal of the first bare-mode
entry — contribute no column, and missing columns are structurally absent
from the row (never present with a null-like value). -/
theorem c4_row_projection :
    (∀ values : List JVal,
        rowOf bqColumns values = (bqColumns.zip values).filter (fun p => jvalTruthy p.2))
    ∧ (∀ tuples : List (List JVal),
        enumToBigQueryRows tuples bqColumns
          = tuples.map (fun vs => (bqColumns.zip vs).filter (fun p => jvalTruthy p.2))) := by
  have base : ∀ values : List JVal,
      rowOf bqColumns values = (bqColumns.zip values).filter (fun p => jvalTruthy p.2) := by
    intro values
    match values with
    | [] => rfl
    | [a] =>
      cases ha : jvalTruthy a <;>
        simp [rowOf, bqColumns, List.enum, List.enumFrom, ha]
    | [a, b] =>
      cases ha : jvalTruthy a <;> cases hb : jvalTruthy b <;>
        simp [rowOf, bqColumns, List.enum, List.enumFrom, ha, hb]
    | a :: b :: c :: rest =>
      cases ha : jvalTruthy a <;> cases hb : jvalTruthy b <;> cases hc : jvalTruthy c <;>
        simp [rowOf, bqColumns, List.enum, List.enumFrom, ha, hb, hc]
  refine ⟨base, fun tuples => ?_⟩
  unfold enumToBigQueryRows
  exact List.map_congr_left (fun vs _ => base vs)

end EnumPipeline
